import Mathlib

/-!
Verification of the snippet-server repository (briangriffinIE/snippet-server).

The repository contains two interchangeable backend variants in `src/index.js`
(a filesystem backend storing one JSON file per record, and a relational
backend storing one row per record) plus a second filesystem variant in
`src/unnamed/part_000` whose persistence routes are line-identical to the
first.  This file gives a shallow embedding of the persistence and query
layer of both variants and proves or refutes the frozen claims about them.

JavaScript strings are modelled as `List Char`; the snippets directory and
the whole filesystem are modelled explicitly so that `path.join` traversal
behaviour is captured; the relational table is a list of rows.  Request
handling is modelled per route as a function from store state to
(new state, response), with the middleware chain (`requireAuth`,
`csrfProtection`) reproduced exactly as each route declares it.
-/

namespace SnippetServer

/-- Strings from the JavaScript source, modelled as lists of characters. -/
abbrev Str := List Char

/-- JavaScript `String.prototype.toLowerCase`, character by character. -/
def lowerStr (s : Str) : Str := s.map Char.toLower

/-- Boolean test that `pat` starts `s`. -/
def isPrefixB : Str → Str → Bool
  | [], _ => true
  | _ :: _, [] => false
  | a :: as, b :: bs => a == b && isPrefixB as bs

/-- Boolean test that `pat` occurs contiguously inside `s`
    (JavaScript `String.prototype.includes`). -/
def isInfixB (pat : Str) : Str → Bool
  | [] => pat.isEmpty
  | c :: t => isPrefixB pat (c :: t) || isInfixB pat t

theorem isPrefixB_iff (pat s : Str) : isPrefixB pat s = true ↔ pat <+: s := by
  induction pat generalizing s with
  | nil => simp [isPrefixB]
  | cons a as ih =>
    cases s with
    | nil => simp [isPrefixB]
    | cons b bs =>
      simp only [isPrefixB, Bool.and_eq_true, beq_iff_eq, ih, List.cons_prefix_cons]

theorem isInfixB_iff (pat s : Str) : isInfixB pat s = true ↔ pat <:+: s := by
  induction s with
  | nil => simp [isInfixB, List.isEmpty_iff, List.infix_nil]
  | cons c t ih =>
    simp only [isInfixB, Bool.or_eq_true, ih, isPrefixB_iff, List.infix_cons_iff]

/-- JavaScript `String.prototype.replace` with a string pattern and the empty
    replacement: removes the first occurrence of `pat`, if any. -/
def replaceFirst : Str → Str → Str
  | [], _ => []
  | c :: t, pat =>
      if isPrefixB pat (c :: t) then (c :: t).drop pat.length
      else c :: replaceFirst t pat

/-- Lexicographic code-point order on strings; the model of
    `a.localeCompare(b) <= 0` for the ASCII strings this program compares. -/
def lexLe : Str → Str → Bool
  | [], _ => true
  | _ :: _, [] => false
  | a :: as, b :: bs => if a = b then lexLe as bs else decide (a < b)

theorem lexLe_total : ∀ s t : Str, (lexLe s t || lexLe t s) = true := by
  intro s
  induction s with
  | nil => intro t; simp [lexLe]
  | cons a as ih =>
    intro t
    cases t with
    | nil => simp [lexLe]
    | cons b bs =>
      by_cases hab : a = b
      · subst hab
        simpa [lexLe] using ih bs
      · rcases lt_or_gt_of_ne hab with h | h
        · simp [lexLe, hab, h]
        · simp [lexLe, hab, Ne.symm hab, h]

theorem lexLe_trans :
    ∀ s t u : Str, lexLe s t = true → lexLe t u = true → lexLe s u = true := by
  intro s
  induction s with
  | nil => intro t u _ _; simp [lexLe]
  | cons a as ih =>
    intro t u hst htu
    cases t with
    | nil => simp [lexLe] at hst
    | cons b bs =>
      cases u with
      | nil => simp [lexLe] at htu
      | cons c cs =>
        by_cases hab : a = b <;> by_cases hbc : b = c
        · subst hab; subst hbc
          simp only [lexLe, if_pos rfl] at hst htu ⊢
          exact ih bs cs hst htu
        · subst hab
          simp only [lexLe, if_pos rfl] at hst
          simp only [lexLe, if_neg hbc, decide_eq_true_eq] at htu
          simp [lexLe, hbc, htu]
        · subst hbc
          simp only [lexLe, if_neg hab, decide_eq_true_eq] at hst
          simp [lexLe, hab, hst]
        · simp only [lexLe, if_neg hab, decide_eq_true_eq] at hst
          simp only [lexLe, if_neg hbc, decide_eq_true_eq] at htu
          have hac : a < c := lt_trans hst htu
          simp [lexLe, ne_of_lt hac, hac]

/-! ## Paths and the filesystem

`path.join(snippetsDir, filename)` concatenates and then normalizes the
path, resolving `.` and `..` segments; a path is a list of segments.
`__dirname` is modelled as the fixed base directory `appDir`. -/

/-- A filesystem path, as a list of segments. -/
abbrev FilePath' := List Str

/-- The directory holding `index.js` (`__dirname`). -/
def appDir : FilePath' := ["app".data]

/-- `const snippetsDir = path.join(__dirname, 'snippets')`. -/
def snippetsDir : FilePath' := appDir ++ ["snippets".data]

/-- Split a string on `'/'`, the path separator. -/
def splitSlashAux : Str → Str → List Str
  | acc, [] => [acc.reverse]
  | acc, c :: t =>
      if c = '/' then acc.reverse :: splitSlashAux [] t
      else splitSlashAux (c :: acc) t

/-- Split a string on `'/'`. -/
def splitSlash (s : Str) : List Str := splitSlashAux [] s

/-- `path.join(base, rest)`: append the segments of `rest` to `base`,
    dropping empty and `.` segments and resolving `..` against the stack. -/
def normJoin (base : FilePath') (segs : List Str) : FilePath' :=
  segs.foldl
    (fun acc seg =>
      if seg = [] ∨ seg = ['.'] then acc
      else if seg = ['.', '.'] then acc.dropLast
      else acc ++ [seg])
    base

/-- The document stored in one snippet file: the JSON object written by the
    routes, with fields `language`, `code` (absent when the request carried
    no `snippet` field, since `JSON.stringify` drops `undefined` values) and
    `timestamp`. -/
structure FsContent where
  language : Str
  code : Option Str
  timestamp : Str
deriving DecidableEq

/-- The filesystem: finitely many files, each a path with its stored document. -/
abbrev Fs := List (FilePath' × FsContent)

/-- Read the file at `p`, if present. -/
def fsLookup (fs : Fs) (p : FilePath') : Option FsContent :=
  match fs with
  | [] => none
  | (q, c) :: rest => if q = p then some c else fsLookup rest p

/-- `fs.writeFileSync`: create the file or silently replace its content. -/
def fsWrite (fs : Fs) (p : FilePath') (c : FsContent) : Fs :=
  match fs with
  | [] => [(p, c)]
  | (q, d) :: rest => if q = p then (p, c) :: rest else (q, d) :: fsWrite rest p c

/-- `fs.unlinkSync`: remove the file at `p`. -/
def fsRemove (fs : Fs) (p : FilePath') : Fs :=
  fs.filter (fun qc => decide (qc.1 ≠ p))

/-- When `p` is a direct entry of directory `base`, its entry name. -/
def inDir : FilePath' → FilePath' → Option Str
  | [], [n] => some n
  | b :: bs, q :: qs => if b = q then inDir bs qs else none
  | _, _ => none

/-- `fs.readdirSync(dir)` together with each entry's content. -/
def dirListing (fs : Fs) (dir : FilePath') : List (Str × FsContent) :=
  fs.filterMap (fun pc => (inDir dir pc.1).map (fun n => (n, pc.2)))

/-- Boolean test that `s` ends with `suffix` (JavaScript `endsWith`). -/
def endsWithB (s suffix : Str) : Bool := isPrefixB suffix.reverse s.reverse

/-- JavaScript `a || b` on strings: `b` when `a` is empty (falsy), else `a`. -/
def jsOrDefault (s d : Str) : Str := if s = [] then d else s

/-- The string `"plaintext"`. -/
def plaintextS : Str := "plaintext".data

/-- The string `".json"`, as an explicit character list. -/
def jsonExt : Str := ['.', 'j', 's', 'o', 'n']

/-- One element of the list `getAllSnippets` produces: filename, language
    (defaulted), code and the filename-derived timestamp. -/
structure SnippetView where
  filename : Str
  language : Str
  content : Option Str
  timestamp : Str
deriving DecidableEq

/-- The record `getAllSnippets` builds from one file. -/
def viewOf (n : Str) (c : FsContent) : SnippetView :=
  { filename := n
    language := jsOrDefault c.language plaintextS
    content := c.code
    timestamp := replaceFirst n jsonExt }

/-- The sort comparator of `getAllSnippets`:
    `(a, b) => b.timestamp.localeCompare(a.timestamp)` — newest first. -/
def snippetDesc (a b : SnippetView) : Bool := lexLe b.timestamp a.timestamp

/-- The unsorted part of `getAllSnippets`: read every `.json` entry of the
    snippets directory and build its view. -/
def rawViews (fs : Fs) : List SnippetView :=
  ((dirListing fs snippetsDir).filter (fun nc => endsWithB nc.1 jsonExt)).map
    (fun nc => viewOf nc.1 nc.2)

/-- `getAllSnippets` (src/index.js 100-113, src/unnamed/part_000 114-127):
    list the `.json` files of the snippets directory, parse each, and sort
    newest-first by the filename-derived timestamp. -/
def getAllSnippets (fs : Fs) : List SnippetView :=
  (rawViews fs).mergeSort snippetDesc

/-! ## Timestamps

`new Date().toISOString()` always yields a 24-character string of the shape
`YYYY-MM-DDTHH:MM:SS.mmmZ`; the filesystem variant then strips `':'` and
`'.'` with `.replace(/[:.]/g, '-')`. -/

/-- `.replace(/[:.]/g, '-')`: replace every `':'` and `'.'` by `'-'`. -/
def sanitizeTs (s : Str) : Str :=
  s.map (fun c => if c = ':' ∨ c = '.' then '-' else c)

/-- The character admissible at index `i` of a `toISOString` result. -/
def isoShapeChar (i : Nat) (c : Char) : Bool :=
  if i = 4 ∨ i = 7 then c == '-'
  else if i = 10 then c == 'T'
  else if i = 13 ∨ i = 16 then c == ':'
  else if i = 19 then c == '.'
  else if i = 23 then c == 'Z'
  else c.isDigit

/-- Shape check of a `toISOString` result starting at index `i`. -/
def isIsoFrom : Nat → Str → Bool
  | i, [] => i == 24
  | i, c :: t => isoShapeChar i c && isIsoFrom (i + 1) t

/-- Shape check of a `toISOString` result: `YYYY-MM-DDTHH:MM:SS.mmmZ`. -/
def isIso (s : Str) : Bool := isIsoFrom 0 s

/-- Restore the separators a sanitized ISO timestamp lost, by position,
    starting at index `i`. -/
def isoRestoreAux : Nat → Str → Str
  | _, [] => []
  | i, c :: t =>
      (if i = 13 ∨ i = 16 then ':' else if i = 19 then '.' else c) ::
        isoRestoreAux (i + 1) t

/-- Restore the separators a sanitized ISO timestamp lost: every ISO instant
    is recoverable from its sanitized form, so the sanitized filename still
    encodes a parseable timestamp. -/
def isoRestore (s : Str) : Str := isoRestoreAux 0 s

/-! ## Requests, responses and middleware -/

/-- The outcome of one request, as the HTTP layer reports it. -/
inductive Response
  | ok                      -- 200 with a success body
  | redirect (loc : Str)    -- 302
  | forbidden               -- 403: `CSRF token validation failed`
  | badRequest              -- 400
  | notFound                -- 404
  | serverError             -- 500
deriving DecidableEq

/-- The string `"/admin"`. -/
def adminLoc : Str := "/admin".data

/-- The string `"/login"`. -/
def loginLoc : Str := "/login".data

/-- The per-request context the middleware consults: whether the session is
    authenticated, and whether the request carries an anti-forgery token that
    matches the one bound to the session. -/
structure ReqCtx where
  authenticated : Bool
  csrfValid : Bool

/-- The `csrfProtection` middleware: an invalid or absent token is answered
    with 403 by the error middleware, before the handler runs. -/
def withCsrf {σ : Type} (ctx : ReqCtx) (h : σ → σ × Response) :
    σ → σ × Response :=
  fun s => if ctx.csrfValid then h s else (s, Response.forbidden)

/-- The `requireAuth` middleware: an unauthenticated session is redirected to
    `/login` before the handler runs. -/
def withAuth {σ : Type} (ctx : ReqCtx) (h : σ → σ × Response) :
    σ → σ × Response :=
  fun s => if ctx.authenticated then h s else (s, Response.redirect loginLoc)

/-! ## Filesystem-variant route handlers

src/index.js lines 1-728 and src/unnamed/part_000 are the same filesystem
variant; the persistence routes below are line-identical in both. -/

/-- Handler of `POST /submit` (src/index.js 280-295, part_000 294-309):
    derive the filename from the sanitized current instant `now` and write
    the record, silently replacing any file already bearing that name.
    `lang` is `req.body.language` (empty models absent), `code` is
    `req.body.snippet` (`none` models absent). -/
def fsSubmitH (now lang : Str) (code : Option Str) (fs : Fs) : Fs × Response :=
  let timestamp := sanitizeTs now
  let filename := timestamp ++ jsonExt
  let filepath := normJoin snippetsDir (splitSlash filename)
  let content : FsContent := ⟨jsOrDefault lang plaintextS, code, timestamp⟩
  (fsWrite fs filepath content, Response.ok)

/-- `POST /submit` with its declared middleware chain `[csrfProtection]`. -/
def fsSubmitRoute (ctx : ReqCtx) (now lang : Str) (code : Option Str) :
    Fs → Fs × Response :=
  withCsrf ctx (fsSubmitH now lang code)

/-- Handler of `POST /delete` (src/index.js 480-502, part_000 487-509):
    the target comes from `req.query.file`; it is joined onto the snippets
    directory and unlinked if the resulting path exists — the only check
    performed on it. -/
def fsDeleteH (file : Option Str) (fs : Fs) : Fs × Response :=
  match file with
  | none => (fs, Response.badRequest)
  | some f =>
      if f = [] then (fs, Response.badRequest)
      else
        let filepath := normJoin snippetsDir (splitSlash f)
        match fsLookup fs filepath with
        | none => (fs, Response.notFound)
        | some _ => (fsRemove fs filepath, Response.ok)

/-- `POST /delete` with its middleware chain `[requireAuth, csrfProtection]`. -/
def fsDeleteRoute (ctx : ReqCtx) (file : Option Str) : Fs → Fs × Response :=
  withAuth ctx (withCsrf ctx (fsDeleteH file))

/-- Handler of `POST /save-edit` (src/index.js 575-588, part_000 641-654):
    rewrite the named file with the new language and code, the `timestamp`
    field recomputed as `filename.replace('.json', '')`; no check that the
    file already exists. -/
def fsSaveEditH (filename lang : Str) (snippet : Option Str) (fs : Fs) :
    Fs × Response :=
  if filename = [] then (fs, Response.badRequest)
  else
    let content : FsContent := ⟨lang, snippet, replaceFirst filename jsonExt⟩
    let fullPath := normJoin snippetsDir (splitSlash filename)
    (fsWrite fs fullPath content, Response.redirect adminLoc)

/-- `POST /save-edit` with its declared middleware chain: `[requireAuth]`
    only — the source attaches no `csrfProtection` to this route. -/
def fsSaveEditRoute (ctx : ReqCtx) (filename lang : Str) (snippet : Option Str) :
    Fs → Fs × Response :=
  withAuth ctx (fsSaveEditH filename lang snippet)

/-- The filter callback of the filesystem `GET /search` on one snippet view:
    `matchesQuery && matchesLanguage`, on the already-lowercased query and
    language. -/
def fsMatches (query : Str) (language : Option Str) (v : SnippetView) : Bool :=
  (query.isEmpty ||
    isInfixB query (lowerStr (v.content.getD [])) ||
    isInfixB query (lowerStr v.filename))
  &&
  (match language with
   | none => true
   | some l => l.isEmpty || lowerStr v.language == l)

/-- Handler of `GET /search` (src/index.js 298-311, part_000 312-325).
    `q` and `lang` are the query parameters (`none` models absent).  The
    `.error` result models the uncaught `TypeError` (surfaced as 500) that
    `snippet.content.toLowerCase()` throws when some stored record has no
    `code` field and the query is non-empty. -/
def fsSearchH (q lang : Option Str) (fs : Fs) :
    Except Unit (List SnippetView) :=
  let query := match q with | none => [] | some s => lowerStr s
  let language := lang.map lowerStr
  let views := getAllSnippets fs
  if !query.isEmpty && views.any (fun v => v.content.isNone) then
    Except.error ()
  else
    Except.ok (views.filter (fsMatches query language))

/-! ## Relational-variant model and route handlers

src/index.js lines 1183-1750 are the relational variant, querying a
Postgres table through `pool.query`. -/

/-- One row of the `snippets` table.  `code` is `none` for SQL `NULL`, which
    the driver stores when the insert parameter was `undefined`. -/
structure Row where
  filename : Str
  language : Str
  code : Option Str
  timestamp : Str
deriving DecidableEq

/-- The `snippets` table. -/
abbrev Table := List Row

/-- Modelled from the spec: the relational schema
    `snippets(filename PRIMARY KEY, language, code, timestamp)` (spec §6) is
    not under src/; its `PRIMARY KEY` makes `INSERT` fail on a duplicate
    `filename` and otherwise append the row. -/
def pgInsert (t : Table) (r : Row) : Except Unit Table :=
  if t.any (fun s => s.filename == r.filename) then Except.error ()
  else Except.ok (t ++ [r])

/-- Handler of `POST /submit` (src/index.js 1183-1203): the filename is the
    raw ISO instant plus `.json`; a failed insert is caught and answered
    with 500, leaving the table unchanged. -/
def pgSubmitH (now lang : Str) (code : Option Str) (t : Table) :
    Table × Response :=
  let timestamp := now
  let filename := now ++ jsonExt
  match pgInsert t ⟨filename, jsOrDefault lang plaintextS, code, timestamp⟩ with
  | Except.ok t' => (t', Response.ok)
  | Except.error _ => (t, Response.serverError)

/-- `POST /submit` (relational) with its middleware chain `[csrfProtection]`. -/
def pgSubmitRoute (ctx : ReqCtx) (now lang : Str) (code : Option Str) :
    Table → Table × Response :=
  withCsrf ctx (pgSubmitH now lang code)

/-- Handler of `POST /delete` (src/index.js 1549-1560): the target comes from
    `req.body.file`; `DELETE FROM snippets WHERE filename = $1`, answering
    404 when `rowCount` is zero. -/
def pgDeleteH (file : Option Str) (t : Table) : Table × Response :=
  match file with
  | none => (t, Response.badRequest)
  | some f =>
      if f = [] then (t, Response.badRequest)
      else
        let remaining := t.filter (fun r => r.filename != f)
        if remaining.length = t.length then (t, Response.notFound)
        else (remaining, Response.ok)

/-- `POST /delete` (relational) with middleware `[requireAuth, csrfProtection]`. -/
def pgDeleteRoute (ctx : ReqCtx) (file : Option Str) : Table → Table × Response :=
  withAuth ctx (withCsrf ctx (pgDeleteH file))

/-- Handler of `POST /edit` (src/index.js 1673-1685): the target comes from
    `req.query.file`; `UPDATE snippets SET language = $1, code = $2 WHERE
    filename = $3` touches neither `filename` nor `timestamp`, and the route
    redirects to `/admin` whether or not any row matched. -/
def pgEditH (file : Option Str) (lang : Str) (snippet : Option Str)
    (t : Table) : Table × Response :=
  match file with
  | none => (t, Response.badRequest)
  | some f =>
      if f = [] then (t, Response.badRequest)
      else
        (t.map (fun r =>
          if r.filename = f then { r with language := lang, code := snippet }
          else r),
         Response.redirect adminLoc)

/-- `POST /edit` (relational) with middleware `[requireAuth, csrfProtection]`. -/
def pgEditRoute (ctx : ReqCtx) (file : Option Str) (lang : Str)
    (snippet : Option Str) : Table → Table × Response :=
  withAuth ctx (withCsrf ctx (pgEditH file lang snippet))

/-- `SELECT code FROM snippets WHERE filename = $1` followed by
    `rows[0].code`, as `GET /snippet-raw` reads a record back
    (src/index.js 1541-1547). -/
def pgGetCode (t : Table) (f : Str) : Option (Option Str) :=
  (t.find? (fun r => r.filename == f)).map (fun r => r.code)

/-- SQL `LIKE`: `'%'` matches any sequence (some split of the rest of the
    subject), `'_'` any single character, anything else itself. -/
def likeMatch : Str → Str → Bool
  | [], s => s.isEmpty
  | '%' :: ps, s =>
      (List.range (s.length + 1)).any (fun k => likeMatch ps (s.drop k))
  | '_' :: ps, s =>
      (match s with
       | [] => false
       | _ :: t => likeMatch ps t)
  | c :: ps, s =>
      (match s with
       | [] => false
       | d :: t => c == d && likeMatch ps t)

/-- The WHERE clause of the relational `GET /search` applied to one row:
    `(LOWER(code) LIKE $1 OR LOWER(filename) LIKE $1)` with
    `$1 = '%' + query + '%'` when `query` is non-empty, AND
    `LOWER(language) = lang` when `lang` is truthy.  A `NULL` code never
    matches `LIKE` (SQL three-valued logic). -/
def pgSearchPred (query : Str) (language : Option Str) (r : Row) : Bool :=
  (query.isEmpty ||
    (match r.code with
     | none => false
     | some c => likeMatch (['%'] ++ query ++ ['%']) (lowerStr c)) ||
    likeMatch (['%'] ++ query ++ ['%']) (lowerStr r.filename))
  &&
  (match language with
   | none => true
   | some l => l.isEmpty || lowerStr r.language == l)

/-- The sort of `ORDER BY timestamp DESC` on the model's text timestamps. -/
def rowDesc (a b : Row) : Bool := lexLe b.timestamp a.timestamp

/-- Handler of `GET /search` (src/index.js 1205-1228): filter by the WHERE
    clause built from the lowered query parameters, newest first. -/
def pgSearchH (q lang : Option Str) (t : Table) : List Row :=
  let query := match q with | none => [] | some s => lowerStr s
  let language := lang.map lowerStr
  (t.filter (pgSearchPred query language)).mergeSort rowDesc

/-! ## Helper lemmas about the filesystem model -/

theorem fsLookup_fsWrite_self (fs : Fs) (p : FilePath') (c : FsContent) :
    fsLookup (fsWrite fs p c) p = some c := by
  induction fs with
  | nil => simp [fsWrite, fsLookup]
  | cons qd rest ih =>
    obtain ⟨q, d⟩ := qd
    by_cases h : q = p
    · simp [fsWrite, fsLookup, h]
    · simp [fsWrite, fsLookup, h, ih]

theorem fsLookup_fsWrite_other (fs : Fs) (p q : FilePath') (c : FsContent)
    (h : q ≠ p) : fsLookup (fsWrite fs p c) q = fsLookup fs q := by
  induction fs with
  | nil => simp [fsWrite, fsLookup, Ne.symm h]
  | cons rd rest ih =>
    obtain ⟨r, d⟩ := rd
    by_cases hr : r = p
    · subst hr
      simp [fsWrite, fsLookup, Ne.symm h]
    · simp only [fsWrite, if_neg hr, fsLookup, ih]

theorem mem_fsWrite_self (fs : Fs) (p : FilePath') (c : FsContent) :
    (p, c) ∈ fsWrite fs p c := by
  induction fs with
  | nil => simp [fsWrite]
  | cons qd rest ih =>
    obtain ⟨q, d⟩ := qd
    by_cases h : q = p
    · simp [fsWrite, h]
    · simp only [fsWrite, if_neg h, List.mem_cons]
      exact Or.inr ih

theorem fsLookup_fsRemove_self (fs : Fs) (p : FilePath') :
    fsLookup (fsRemove fs p) p = none := by
  induction fs with
  | nil => simp [fsRemove, fsLookup]
  | cons qd rest ih =>
    obtain ⟨q, d⟩ := qd
    by_cases h : q = p
    · simpa [fsRemove, h] using ih
    · simpa [fsRemove, fsLookup, h] using ih

theorem splitSlashAux_noSlash (s : Str) (h : '/' ∉ s) :
    ∀ acc : Str, splitSlashAux acc s = [acc.reverse ++ s] := by
  induction s with
  | nil => intro acc; simp [splitSlashAux]
  | cons c t ih =>
    intro acc
    have hc : c ≠ '/' := fun hc => h (hc ▸ List.mem_cons_self c t)
    have ht : '/' ∉ t := fun hm => h (List.mem_cons_of_mem c hm)
    have hstep : splitSlashAux acc (c :: t) = splitSlashAux (c :: acc) t := by
      simp [splitSlashAux, hc]
    rw [hstep, ih ht, List.reverse_cons, List.append_assoc]
    simp

theorem splitSlash_noSlash (s : Str) (h : '/' ∉ s) : splitSlash s = [s] := by
  simpa [splitSlash] using splitSlashAux_noSlash s h []

theorem normJoin_name (base : FilePath') (seg : Str) (h : 3 ≤ seg.length) :
    normJoin base [seg] = base ++ [seg] := by
  have h1 : seg ≠ [] := by
    intro he; subst he; simp at h
  have h2 : seg ≠ ['.'] := by
    intro he; subst he; simp at h
  have h3 : seg ≠ ['.', '.'] := by
    intro he; subst he; simp at h
  simp [normJoin, h1, h2, h3]

/-! ## Helper lemmas about timestamps and filenames -/

theorem mem_sanitizeTs {c : Char} {s : Str} (h : c ∈ sanitizeTs s) :
    c = '-' ∨ (c ∈ s ∧ c ≠ ':' ∧ c ≠ '.') := by
  simp only [sanitizeTs, List.mem_map] at h
  obtain ⟨a, ha, hf⟩ := h
  by_cases hsep : a = ':' ∨ a = '.'
  · left
    rw [← hf, if_pos hsep]
  · right
    rw [← hf, if_neg hsep]
    push_neg at hsep
    exact ⟨ha, hsep.1, hsep.2⟩

theorem sanitizeTs_length (s : Str) : (sanitizeTs s).length = s.length := by
  simp [sanitizeTs]

theorem sanitizeTs_no_dot (s : Str) : '.' ∉ sanitizeTs s := by
  intro h
  rcases mem_sanitizeTs h with h1 | ⟨_, _, h3⟩
  · exact absurd h1 (by decide)
  · exact h3 rfl

theorem sanitizeTs_no_colon (s : Str) : ':' ∉ sanitizeTs s := by
  intro h
  rcases mem_sanitizeTs h with h1 | ⟨_, h2, _⟩
  · exact absurd h1 (by decide)
  · exact h2 rfl

theorem sanitizeTs_noSlash {s : Str} (hs : '/' ∉ s) : '/' ∉ sanitizeTs s := by
  intro h
  rcases mem_sanitizeTs h with h1 | ⟨h2, _, _⟩
  · exact absurd h1 (by decide)
  · exact hs h2

theorem isoShapeChar_sep {i : Nat} {c : Char} (h : isoShapeChar i c = true) :
    ((i = 13 ∨ i = 16) → c = ':') ∧ (i = 19 → c = '.') ∧
      (¬(i = 13 ∨ i = 16) → i ≠ 19 → (c ≠ ':' ∧ c ≠ '.' ∧ c ≠ '/')) := by
  unfold isoShapeChar at h
  split_ifs at h with h1 h2 h3 h4 h5
  · refine ⟨fun hi => by omega, fun hi => by omega, fun _ _ => ?_⟩
    have hc : c = '-' := by simpa using h
    subst hc; refine ⟨by decide, by decide, by decide⟩
  · refine ⟨fun hi => by omega, fun hi => by omega, fun _ _ => ?_⟩
    have hc : c = 'T' := by simpa using h
    subst hc; refine ⟨by decide, by decide, by decide⟩
  · refine ⟨fun _ => by simpa using h, fun hi => by omega,
      fun hni _ => absurd h3 hni⟩
  · refine ⟨fun hi => by omega, fun _ => by simpa using h,
      fun _ hni => absurd h4 hni⟩
  · refine ⟨fun hi => by omega, fun hi => by omega, fun _ _ => ?_⟩
    have hc : c = 'Z' := by simpa using h
    subst hc; refine ⟨by decide, by decide, by decide⟩
  · refine ⟨fun hi => by omega, fun hi => by omega, fun _ _ => ?_⟩
    refine ⟨fun hc => ?_, fun hc => ?_, fun hc => ?_⟩ <;>
      (subst hc; exact absurd h (by decide))

theorem isIsoFrom_noSlash :
    ∀ (s : Str) (i : Nat), isIsoFrom i s = true → '/' ∉ s := by
  intro s
  induction s with
  | nil => intro i _; simp
  | cons c t ih =>
    intro i h
    simp only [isIsoFrom, Bool.and_eq_true] at h
    obtain ⟨hc, ht⟩ := h
    intro hm
    rcases List.mem_cons.mp hm with he | hm
    · subst he
      rcases isoShapeChar_sep hc with ⟨hs1, hs2, hs3⟩
      by_cases hi1 : i = 13 ∨ i = 16
      · exact absurd (hs1 hi1) (by decide)
      · by_cases hi2 : i = 19
        · exact absurd (hs2 hi2) (by decide)
        · exact (hs3 hi1 hi2).2.2 rfl
    · exact ih (i + 1) ht hm

theorem isIso_noSlash {s : Str} (h : isIso s = true) : '/' ∉ s :=
  isIsoFrom_noSlash s 0 h

theorem isIsoFrom_length : ∀ (s : Str) (i : Nat),
    isIsoFrom i s = true → i + s.length = 24 := by
  intro s
  induction s with
  | nil =>
    intro i h
    simp only [isIsoFrom, beq_iff_eq] at h
    simpa using h
  | cons c t ih =>
    intro i h
    simp only [isIsoFrom, Bool.and_eq_true] at h
    have := ih (i + 1) h.2
    simp only [List.length_cons]
    omega

theorem isoRestoreAux_sanitize :
    ∀ (s : Str) (i : Nat), isIsoFrom i s = true →
      isoRestoreAux i (sanitizeTs s) = s := by
  intro s
  induction s with
  | nil => intro i _; simp [sanitizeTs, isoRestoreAux]
  | cons c t ih =>
    intro i h
    simp only [isIsoFrom, Bool.and_eq_true] at h
    obtain ⟨hc, ht⟩ := h
    rcases isoShapeChar_sep hc with ⟨hs1, hs2, hs3⟩
    show isoRestoreAux i (sanitizeTs (c :: t)) = c :: t
    have hmap : sanitizeTs (c :: t) =
        (if c = ':' ∨ c = '.' then '-' else c) :: sanitizeTs t := rfl
    rw [hmap]
    by_cases hi1 : i = 13 ∨ i = 16
    · have hcv : c = ':' := hs1 hi1
      subst hcv
      simp only [isoRestoreAux, if_pos hi1, if_pos (Or.inl rfl)]
      rw [ih (i + 1) ht]
    · by_cases hi2 : i = 19
      · have hcv : c = '.' := hs2 hi2
        subst hcv
        simp only [isoRestoreAux, if_neg hi1, if_pos hi2,
          if_pos (Or.inr rfl)]
        rw [ih (i + 1) ht]
      · obtain ⟨hc1, hc2, _⟩ := hs3 hi1 hi2
        have hsep : ¬(c = ':' ∨ c = '.') := by
          rintro (h | h)
          · exact hc1 h
          · exact hc2 h
        simp only [isoRestoreAux, if_neg hi1, if_neg hi2, if_neg hsep]
        rw [ih (i + 1) ht]

theorem isoRestore_sanitize {s : Str} (h : isIso s = true) :
    isoRestore (sanitizeTs s) = s :=
  isoRestoreAux_sanitize s 0 h

theorem replaceFirst_json (s : Str) (h : '.' ∉ s) :
    replaceFirst (s ++ jsonExt) jsonExt = s := by
  induction s with
  | nil =>
    show replaceFirst jsonExt jsonExt = []
    decide
  | cons c t ih =>
    have hc : c ≠ '.' := fun e => h (e ▸ List.mem_cons_self c t)
    have ht : '.' ∉ t := fun m => h (List.mem_cons_of_mem c m)
    have hpre : isPrefixB jsonExt (c :: (t ++ jsonExt)) = false := by
      have hb : ('.' == c) = false := by
        simp only [beq_eq_false_iff_ne, ne_eq]
        exact fun e => hc e.symm
      simp [jsonExt, isPrefixB, hb]
    show replaceFirst ((c :: t) ++ jsonExt) jsonExt = c :: t
    rw [List.cons_append]
    simp only [replaceFirst]
    rw [if_neg (by rw [hpre]; exact Bool.false_ne_true), ih ht]

theorem isPrefixB_self_append (a b : Str) : isPrefixB a (a ++ b) = true := by
  induction a with
  | nil => simp [isPrefixB]
  | cons c t ih => simp [isPrefixB, ih]

theorem endsWithB_append (s ext : Str) : endsWithB (s ++ ext) ext = true := by
  simp [endsWithB, List.reverse_append, isPrefixB_self_append]

/-- The path a well-formed create writes to: a plain entry of the snippets
    directory. -/
theorem submit_filepath {now : Str} (h : isIso now = true) :
    normJoin snippetsDir (splitSlash (sanitizeTs now ++ jsonExt)) =
      snippetsDir ++ [sanitizeTs now ++ jsonExt] := by
  have hns : '/' ∉ sanitizeTs now ++ jsonExt := by
    intro hm
    rcases List.mem_append.mp hm with hm | hm
    · exact sanitizeTs_noSlash (isIso_noSlash h) hm
    · simp [jsonExt] at hm
  rw [splitSlash_noSlash _ hns]
  refine normJoin_name _ _ ?_
  have h5 : jsonExt.length = 5 := rfl
  rw [List.length_append, h5]
  omega

/-! ## Helper lemmas about the directory listing -/

theorem inDir_append (base : FilePath') (n : Str) :
    inDir base (base ++ [n]) = some n := by
  induction base with
  | nil => simp [inDir]
  | cons b bs ih => simpa [inDir] using ih

theorem inDir_eq_some :
    ∀ {base p : FilePath'} {n : Str}, inDir base p = some n → p = base ++ [n] := by
  intro base
  induction base with
  | nil =>
    intro p n h
    match p with
    | [] => simp [inDir] at h
    | [q] =>
      simp only [inDir, Option.some.injEq] at h
      simp [h]
    | q :: r :: rest => simp [inDir] at h
  | cons b bs ih =>
    intro p n h
    match p with
    | [] => simp [inDir] at h
    | q :: qs =>
      by_cases hb : b = q
      · subst hb
        simp only [inDir, if_pos rfl] at h
        simpa using ih h
      · simp [inDir, hb] at h

theorem mem_dirListing {fs : Fs} {dir : FilePath'} {n : Str} {c : FsContent}
    (h : (dir ++ [n], c) ∈ fs) : (n, c) ∈ dirListing fs dir := by
  simp only [dirListing, List.mem_filterMap]
  exact ⟨(dir ++ [n], c), h, by simp [inDir_append]⟩

theorem mem_rawViews {fs : Fs} {n : Str} {c : FsContent}
    (hmem : (snippetsDir ++ [n], c) ∈ fs)
    (hext : endsWithB n jsonExt = true) :
    viewOf n c ∈ rawViews fs := by
  simp only [rawViews, List.mem_map]
  refine ⟨(n, c), ?_, rfl⟩
  simp only [List.mem_filter]
  exact ⟨mem_dirListing hmem, hext⟩

theorem mem_getAllSnippets_iff {fs : Fs} {v : SnippetView} :
    v ∈ getAllSnippets fs ↔ v ∈ rawViews fs :=
  (List.mergeSort_perm (rawViews fs) snippetDesc).mem_iff

theorem getAllSnippets_sorted (fs : Fs) :
    List.Pairwise (fun a b => snippetDesc a b = true) (getAllSnippets fs) :=
  @List.sorted_mergeSort SnippetView snippetDesc
    (fun a b c hab hbc => lexLe_trans c.timestamp b.timestamp a.timestamp hbc hab)
    (fun a b => lexLe_total b.timestamp a.timestamp)
    (rawViews fs)

theorem filterMap_inDir_nodup (dir : FilePath') :
    ∀ fs : Fs, (fs.map Prod.fst).Nodup →
      (fs.filterMap (fun pc => inDir dir pc.1)).Nodup := by
  intro fs
  induction fs with
  | nil => simp
  | cons pc rest ih =>
    intro h
    simp only [List.map_cons, List.nodup_cons] at h
    obtain ⟨hp, hrest⟩ := h
    cases he : inDir dir pc.1 with
    | none => simpa [List.filterMap_cons, he] using ih hrest
    | some n =>
      simp only [List.filterMap_cons, he, List.nodup_cons]
      refine ⟨?_, ih hrest⟩
      intro hn
      simp only [List.mem_filterMap] at hn
      obtain ⟨qc, hqc, hq⟩ := hn
      have h1 := inDir_eq_some he
      have h2 := inDir_eq_some hq
      exact hp (by
        rw [h1, ← h2]
        exact List.mem_map_of_mem Prod.fst hqc)

theorem dirNames_eq (fs : Fs) (dir : FilePath') :
    (dirListing fs dir).map Prod.fst =
      fs.filterMap (fun pc => inDir dir pc.1) := by
  rw [dirListing, List.map_filterMap]
  refine congrArg (fun f => List.filterMap f fs) ?_
  funext pc
  cases inDir dir pc.1 <;> rfl

theorem rawViews_nodup {fs : Fs} (h : (fs.map Prod.fst).Nodup) :
    (rawViews fs).Nodup := by
  have h1 : ((dirListing fs snippetsDir).map Prod.fst).Nodup := by
    rw [dirNames_eq]
    exact filterMap_inDir_nodup snippetsDir fs h
  have h2 : List.Sublist
      (((dirListing fs snippetsDir).filter
          (fun nc => endsWithB nc.1 jsonExt)).map Prod.fst)
      ((dirListing fs snippetsDir).map Prod.fst) :=
    (List.filter_sublist _).map _
  have h3 := h1.sublist h2
  have h4 : ((rawViews fs).map (fun v => v.filename)).Nodup := by
    simpa [rawViews, List.map_map, Function.comp, viewOf] using h3
  exact List.Nodup.of_map _ h4

theorem getAllSnippets_nodup {fs : Fs} (h : (fs.map Prod.fst).Nodup) :
    (getAllSnippets fs).Nodup :=
  ((List.mergeSort_perm (rawViews fs) snippetDesc).nodup_iff).mpr
    (rawViews_nodup h)

/-! ## Helper lemmas about the relational model -/

theorem pgGetCode_append_fresh {t : Table} {r : Row}
    (h : ∀ s ∈ t, s.filename ≠ r.filename) :
    pgGetCode (t ++ [r]) r.filename = some r.code := by
  induction t with
  | nil => simp [pgGetCode]
  | cons s rest ih =>
    have hs : (s.filename == r.filename) = false := by
      simpa using h s (List.mem_cons_self s rest)
    have hrest : ∀ x ∈ rest, x.filename ≠ r.filename :=
      fun x hx => h x (List.mem_cons_of_mem s hx)
    simpa [pgGetCode, List.find?_cons, hs] using ih hrest

theorem pgInsert_fresh {t : Table} {r : Row}
    (h : ∀ s ∈ t, s.filename ≠ r.filename) :
    pgInsert t r = Except.ok (t ++ [r]) := by
  have : t.any (fun s => s.filename == r.filename) = false := by
    simp only [List.any_eq_false]
    intro s hs
    simpa using h s hs
  simp [pgInsert, this]

theorem pgInsert_dup {t : Table} {r : Row}
    (h : ∃ s ∈ t, s.filename = r.filename) :
    pgInsert t r = Except.error () := by
  have : t.any (fun s => s.filename == r.filename) = true := by
    simp only [List.any_eq_true]
    obtain ⟨s, hs, he⟩ := h
    exact ⟨s, hs, by simpa using he⟩
  simp [pgInsert, this]

/-! ## Concrete data for the evaluations below -/

/-- A concrete creation instant, in the exact `toISOString` shape. -/
def isoNow : Str := "2024-01-02T03:04:05.678Z".data

/-- The sanitized form of `isoNow`. -/
def sanNow : Str := sanitizeTs isoNow

/-- The filename the filesystem variant derives from `isoNow`. -/
def fsName : Str := sanNow ++ jsonExt

/-- The path of the snippet file named `fsName`. -/
def fsPath : FilePath' := snippetsDir ++ [fsName]

/-- A one-record store holding a python snippet created at `isoNow`. -/
def fsOne : Fs := [(fsPath, ⟨"python".data, some "print".data, sanNow⟩)]

/-- The view `getAllSnippets` builds for the record of `fsOne`. -/
def fsOneView : SnippetView :=
  ⟨fsName, "python".data, some "print".data, sanNow⟩

/-! ## The claims -/

/-- C1, counterexample: an authenticated `POST /save-edit` request whose
    anti-forgery token is invalid (`csrfValid = false`) is not rejected with
    403: the route runs, overwrites the stored record, and answers with the
    redirect to `/admin` — the store is mutated although the request carried
    no valid token. -/
theorem c1_saveEdit_token_gate_bypassed :
    fsSaveEditRoute ⟨true, false⟩ fsName "python".data (some "new".data) fsOne
      = ([(fsPath, ⟨"python".data, some "new".data, sanNow⟩)],
         Response.redirect adminLoc) := by decide

/-- C1, amended: every mutating request without a valid anti-forgery token is
    rejected with 403 before any store operation for `POST /submit`,
    `POST /delete` and the relational `POST /edit`; `POST /save-edit`,
    however, is guarded by `requireAuth` alone, so an authenticated request
    without a valid token still runs the store write. -/
theorem c1_token_gate_amended (ctx : ReqCtx) (hcs : ctx.csrfValid = false)
    (now lang fn : Str) (code snippet : Option Str) (file : Option Str)
    (fs : Fs) (t : Table) :
    fsSubmitRoute ctx now lang code fs = (fs, Response.forbidden)
    ∧ (ctx.authenticated = true →
        fsDeleteRoute ctx file fs = (fs, Response.forbidden))
    ∧ pgSubmitRoute ctx now lang code t = (t, Response.forbidden)
    ∧ (ctx.authenticated = true →
        pgDeleteRoute ctx file t = (t, Response.forbidden)
        ∧ pgEditRoute ctx file lang snippet t = (t, Response.forbidden))
    ∧ (ctx.authenticated = true →
        fsSaveEditRoute ctx fn lang snippet fs = fsSaveEditH fn lang snippet fs) := by
  refine ⟨?_, ?_, ?_, ?_, ?_⟩
  · simp [fsSubmitRoute, withCsrf, hcs]
  · intro ha; simp [fsDeleteRoute, withAuth, withCsrf, hcs, ha]
  · simp [pgSubmitRoute, withCsrf, hcs]
  · intro ha
    exact ⟨by simp [pgDeleteRoute, withAuth, withCsrf, hcs, ha],
           by simp [pgEditRoute, withAuth, withCsrf, hcs, ha]⟩
  · intro ha
    simp [fsSaveEditRoute, withAuth, ha]

/-- C1, witness for the amended theorem at a concrete token-less
    authenticated request. -/
theorem c1_token_gate_amended_witness :
    fsSubmitRoute ⟨true, false⟩ isoNow "python".data (some "x".data) fsOne
        = (fsOne, Response.forbidden)
    ∧ fsDeleteRoute ⟨true, false⟩ (some fsName) fsOne
        = (fsOne, Response.forbidden) := by
  have h := c1_token_gate_amended ⟨true, false⟩ rfl isoNow "python".data
    fsName (some "x".data) (some "x".data) (some fsName) fsOne []
  exact ⟨h.1, h.2.1 rfl⟩

/-- C2: updating a record through `POST /save-edit` (filesystem variant) or
    `POST /edit` (relational variant) preserves its filename and its original
    timestamp; only the language and code fields change, and no other record
    is touched.  For the filesystem variant the stored timestamp of the
    target record is assumed equal to its filename stripped of `.json`, the
    invariant every record created by `POST /submit` satisfies. -/
theorem c2_update_preserves_identity
    (fs : Fs) (fn lang : Str) (snippet : Option Str) (c : FsContent)
    (hslash : '/' ∉ fn) (hlen : 3 ≤ fn.length)
    (hget : fsLookup fs (snippetsDir ++ [fn]) = some c)
    (hts : c.timestamp = replaceFirst fn jsonExt) :
    (fsLookup (fsSaveEditH fn lang snippet fs).1 (snippetsDir ++ [fn])
        = some ⟨lang, snippet, c.timestamp⟩
      ∧ ∀ p : FilePath', p ≠ snippetsDir ++ [fn] →
          fsLookup (fsSaveEditH fn lang snippet fs).1 p = fsLookup fs p)
    ∧ ∀ (t : Table) (f l : Str) (cd : Option Str), f ≠ [] →
        ∀ r ∈ t, ∃ r' ∈ (pgEditH (some f) l cd t).1,
          r'.filename = r.filename ∧ r'.timestamp = r.timestamp ∧
          (r.filename = f → r'.language = l ∧ r'.code = cd) ∧
          (r.filename ≠ f → r' = r) := by
  have hfn : fn ≠ [] := by
    intro he; subst he; simp at hlen
  have hpath : normJoin snippetsDir (splitSlash fn) = snippetsDir ++ [fn] := by
    rw [splitSlash_noSlash fn hslash]
    exact normJoin_name _ _ hlen
  constructor
  · constructor
    · simp only [fsSaveEditH, if_neg hfn, hpath, hts]
      exact fsLookup_fsWrite_self fs _ _
    · intro p hp
      simp only [fsSaveEditH, if_neg hfn, hpath]
      exact fsLookup_fsWrite_other fs _ _ _ hp
  · intro t f l cd hf r hr
    refine ⟨if r.filename = f then { r with language := l, code := cd } else r,
      ?_, ?_⟩
    · simp only [pgEditH, if_neg hf]
      exact List.mem_map_of_mem _ hr
    · by_cases hrf : r.filename = f
      · simp [hrf]
      · simp [hrf]

/-- C2, witness: the concrete one-record store, updated in place. -/
theorem c2_update_preserves_identity_witness :
    fsLookup (fsSaveEditH fsName "sql".data (some "x".data) fsOne).1 fsPath
      = some ⟨"sql".data, some "x".data, sanNow⟩ := by
  have h := c2_update_preserves_identity fsOne fsName "sql".data
    (some "x".data) ⟨"python".data, some "print".data, sanNow⟩
    (by decide) (by decide) (by decide) (by decide)
  exact h.1.1

/-- C3, counterexample: updating a filename that names no existing record
    does not fail with 404 — the filesystem variant creates the record
    (an upsert) and redirects, and the relational variant redirects with the
    table unchanged. -/
theorem c3_update_missing_counterexample :
    fsSaveEditH fsName "python".data (some "x".data) []
        = ([(fsPath, ⟨"python".data, some "x".data, sanNow⟩)],
           Response.redirect adminLoc)
      ∧ pgEditH (some fsName) "python".data (some "x".data) []
        = ([], Response.redirect adminLoc) := by decide

/-- C3, amended: an update whose target filename names no existing record is
    not answered with 404: the filesystem variant creates the record and
    redirects, and the relational variant leaves the table unchanged and
    still redirects. -/
theorem c3_update_missing_amended
    (fs : Fs) (fn lang : Str) (snippet : Option Str)
    (hslash : '/' ∉ fn) (hlen : 3 ≤ fn.length)
    (hmiss : fsLookup fs (snippetsDir ++ [fn]) = none) :
    ((fsSaveEditH fn lang snippet fs).2 = Response.redirect adminLoc
      ∧ fsLookup (fsSaveEditH fn lang snippet fs).1 (snippetsDir ++ [fn])
          = some ⟨lang, snippet, replaceFirst fn jsonExt⟩)
    ∧ ∀ (t : Table) (f l : Str) (cd : Option Str), f ≠ [] →
        (∀ r ∈ t, r.filename ≠ f) →
        pgEditH (some f) l cd t = (t, Response.redirect adminLoc) := by
  have hfn : fn ≠ [] := by
    intro he; subst he; simp at hlen
  have hpath : normJoin snippetsDir (splitSlash fn) = snippetsDir ++ [fn] := by
    rw [splitSlash_noSlash fn hslash]
    exact normJoin_name _ _ hlen
  refine ⟨⟨?_, ?_⟩, ?_⟩
  · simp [fsSaveEditH, if_neg hfn]
  · simp only [fsSaveEditH, if_neg hfn, hpath]
    exact fsLookup_fsWrite_self fs _ _
  · intro t f l cd hf hnone
    simp only [pgEditH, if_neg hf]
    refine Prod.ext ?_ rfl
    show t.map _ = t
    refine (List.map_congr_left ?_).trans (List.map_id t)
    intro r hr
    simp [hnone r hr]

/-- C3, witness for the amended theorem on the empty store. -/
theorem c3_update_missing_amended_witness :
    (fsSaveEditH fsName "python".data (some "x".data) []).2
      = Response.redirect adminLoc := by
  have h := c3_update_missing_amended [] fsName "python".data (some "x".data)
    (by decide) (by decide) (by decide)
  exact h.1.1

/-- C4, counterexample: the relational variant's `GET /search` implements
    the substring match with SQL LIKE, so the query `"_"` (a LIKE
    metacharacter) returns a record although neither its code nor its
    filename contains `"_"` — the search does not return exactly the records
    containing the query. -/
theorem c4_search_like_counterexample :
    pgSearchH (some "_".data) none
        [⟨fsName, plaintextS, some "abc".data, isoNow⟩]
        = [⟨fsName, plaintextS, some "abc".data, isoNow⟩]
      ∧ isInfixB (lowerStr "_".data) (lowerStr "abc".data) = false
      ∧ isInfixB (lowerStr "_".data) (lowerStr fsName) = false := by
  refine ⟨?_, by decide, by decide⟩
  have h1 : pgSearchH (some "_".data) none
      [⟨fsName, plaintextS, some "abc".data, isoNow⟩]
      = (([⟨fsName, plaintextS, some "abc".data, isoNow⟩] : Table).filter
          (pgSearchPred (lowerStr "_".data)
            (Option.map lowerStr none))).mergeSort rowDesc := rfl
  have h2 : ([⟨fsName, plaintextS, some "abc".data, isoNow⟩] : Table).filter
      (pgSearchPred (lowerStr "_".data) (Option.map lowerStr none))
      = [⟨fsName, plaintextS, some "abc".data, isoNow⟩] := by decide
  rw [h1, h2, List.mergeSort_singleton]

/-- C4, amended: for the filesystem variant the search contract holds as
    stated — empty query and empty language return every record exactly
    once (the whole listing, with no duplicate given distinct stored paths);
    a non-empty query returns exactly the records whose code or filename
    contains it case-insensitively; a language filter returns exactly the
    records of that language case-insensitively; both predicates are
    conjoined.  The stored records are assumed to carry a `code` field,
    since the filesystem search throws on one that lacks it.  (The
    relational variant diverges for queries containing LIKE
    metacharacters.) -/
theorem c4_search_correct_fs (fs : Fs) :
    (∀ q lang : Option Str,
        (q = none ∨ q = some []) → (lang = none ∨ lang = some []) →
        fsSearchH q lang fs = Except.ok (getAllSnippets fs))
    ∧ ((fs.map Prod.fst).Nodup → (getAllSnippets fs).Nodup)
    ∧ (∀ q : Str, q ≠ [] →
        (∀ v ∈ getAllSnippets fs, v.content ≠ none) →
        ∃ l, fsSearchH (some q) none fs = Except.ok l ∧
          ∀ v, v ∈ l ↔ v ∈ getAllSnippets fs ∧
            (lowerStr q <:+: lowerStr (v.content.getD [])
              ∨ lowerStr q <:+: lowerStr v.filename))
    ∧ (∀ lp : Str, lp ≠ [] →
        ∃ l, fsSearchH none (some lp) fs = Except.ok l ∧
          ∀ v, v ∈ l ↔ v ∈ getAllSnippets fs ∧
            lowerStr v.language = lowerStr lp)
    ∧ (∀ q lp : Str, q ≠ [] → lp ≠ [] →
        (∀ v ∈ getAllSnippets fs, v.content ≠ none) →
        ∃ l, fsSearchH (some q) (some lp) fs = Except.ok l ∧
          ∀ v, v ∈ l ↔ v ∈ getAllSnippets fs ∧
            ((lowerStr q <:+: lowerStr (v.content.getD [])
               ∨ lowerStr q <:+: lowerStr v.filename)
             ∧ lowerStr v.language = lowerStr lp)) := by
  have hany : (∀ v ∈ getAllSnippets fs, v.content ≠ none) →
      (getAllSnippets fs).any (fun v => v.content.isNone) = false := by
    intro hcontent
    rw [List.any_eq_false]
    intro v hv
    rw [Option.isNone_iff_eq_none]
    exact hcontent v hv
  have hemp : ∀ s : Str, s ≠ [] → (lowerStr s).isEmpty = false := by
    intro s hs
    rw [List.isEmpty_eq_false]
    simp only [lowerStr, ne_eq, List.map_eq_nil_iff]
    exact hs
  refine ⟨?_, ?_, ?_, ?_, ?_⟩
  · intro q lang hq hl
    rcases hq with rfl | rfl <;> rcases hl with rfl | rfl <;>
      exact congrArg Except.ok (List.filter_eq_self.mpr fun v _ => rfl)
  · exact getAllSnippets_nodup
  · intro q hq hcontent
    have heq : fsSearchH (some q) none fs
        = Except.ok ((getAllSnippets fs).filter
            (fsMatches (lowerStr q) none)) := by
      have hcond : (!(lowerStr q).isEmpty
          && (getAllSnippets fs).any fun v => v.content.isNone) = false := by
        rw [hany hcontent, Bool.and_false]
      simp only [fsSearchH, Option.map_none', hcond, Bool.false_eq_true,
        if_false]
    refine ⟨_, heq, ?_⟩
    intro v
    simp only [List.mem_filter, fsMatches, hemp q hq,
      Bool.false_or, Bool.and_true, Bool.or_eq_true, isInfixB_iff]
  · intro lp hlp
    have heq : fsSearchH none (some lp) fs
        = Except.ok ((getAllSnippets fs).filter
            (fsMatches [] (some (lowerStr lp)))) := rfl
    refine ⟨_, heq, ?_⟩
    intro v
    simp only [List.mem_filter, fsMatches, hemp lp hlp,
      List.isEmpty_nil, Bool.true_or, Bool.true_and, Bool.false_or,
      beq_iff_eq]
  · intro q lp hq hlp hcontent
    have heq : fsSearchH (some q) (some lp) fs
        = Except.ok ((getAllSnippets fs).filter
            (fsMatches (lowerStr q) (some (lowerStr lp)))) := by
      have hcond : (!(lowerStr q).isEmpty
          && (getAllSnippets fs).any fun v => v.content.isNone) = false := by
        rw [hany hcontent, Bool.and_false]
      simp only [fsSearchH, Option.map_some', hcond, Bool.false_eq_true,
        if_false]
    refine ⟨_, heq, ?_⟩
    intro v
    simp only [List.mem_filter, fsMatches, hemp q hq, hemp lp hlp,
      Bool.false_or, Bool.and_eq_true, Bool.or_eq_true, isInfixB_iff,
      beq_iff_eq]

/-- C4, witness for the amended theorem on the concrete one-record store. -/
theorem c4_search_correct_fs_witness :
    fsSearchH none none fsOne = Except.ok (getAllSnippets fsOne)
    ∧ ∃ l, fsSearchH (some "print".data) none fsOne = Except.ok l ∧
        ∀ v, v ∈ l ↔ v ∈ getAllSnippets fsOne ∧
          (lowerStr "print".data <:+: lowerStr (v.content.getD [])
            ∨ lowerStr "print".data <:+: lowerStr v.filename) := by
  have h := c4_search_correct_fs fsOne
  refine ⟨h.1 none none (Or.inl rfl) (Or.inl rfl), ?_⟩
  refine h.2.2.1 "print".data (by decide) ?_
  intro v hv
  rw [mem_getAllSnippets_iff] at hv
  have hr : rawViews fsOne = [fsOneView] := by decide
  rw [hr, List.mem_singleton] at hv
  subst hv
  decide

theorem isIsoFrom_colon :
    ∀ (s : Str) (i : Nat), isIsoFrom i s = true → i ≤ 13 → ':' ∈ s := by
  intro s
  induction s with
  | nil =>
    intro i h hle
    have := isIsoFrom_length [] i h
    simp only [List.length_nil] at this
    omega
  | cons c t ih =>
    intro i h hle
    simp only [isIsoFrom, Bool.and_eq_true] at h
    obtain ⟨hc, ht⟩ := h
    by_cases hi : i = 13
    · subst hi
      have hcv : c = ':' := (isoShapeChar_sep hc).1 (Or.inl rfl)
      rw [hcv]
      exact List.mem_cons_self ':' t
    · have hle' : i + 1 ≤ 13 := by omega
      exact List.mem_cons_of_mem c (ih (i + 1) ht hle')

theorem isIso_colon {s : Str} (h : isIso s = true) : ':' ∈ s :=
  isIsoFrom_colon s 0 h (by omega)

/-- C5, counterexample: creating a snippet with the empty language string
    and reading it back yields the language `plaintext`, not the submitted
    (empty) language — the round trip does not return the submitted language
    for every pair with code present. -/
theorem c5_roundtrip_counterexample :
    getAllSnippets (fsSubmitH isoNow [] (some "x".data) []).1
        = [⟨fsName, plaintextS, some "x".data, sanNow⟩]
      ∧ plaintextS ≠ ([] : Str) := by
  constructor
  · have hr : rawViews (fsSubmitH isoNow [] (some "x".data) []).1
        = [⟨fsName, plaintextS, some "x".data, sanNow⟩] := by decide
    show (rawViews _).mergeSort snippetDesc = _
    rw [hr, List.mergeSort_singleton]
  · decide

/-- C5, amended: for every creation instant in ISO shape and every
    (language, code) pair with code present and language non-empty,
    create-then-read returns the record byte-identical in code, with the
    submitted language, under a filename whose sanitized timestamp is
    recoverable (parseable); the relational variant also reads the identical
    code back. -/
theorem c5_roundtrip_amended (fs : Fs) (now lang code : Str)
    (hiso : isIso now = true) (hlang : lang ≠ []) :
    fsLookup (fsSubmitH now lang (some code) fs).1
        (snippetsDir ++ [sanitizeTs now ++ jsonExt])
        = some ⟨lang, some code, sanitizeTs now⟩
    ∧ (∃ v ∈ getAllSnippets (fsSubmitH now lang (some code) fs).1,
        v.filename = sanitizeTs now ++ jsonExt ∧ v.content = some code
          ∧ v.language = lang)
    ∧ isoRestore (sanitizeTs now) = now
    ∧ replaceFirst (sanitizeTs now ++ jsonExt) jsonExt = sanitizeTs now
    ∧ ∀ t : Table, (∀ r ∈ t, r.filename ≠ now ++ jsonExt) →
        pgGetCode (pgSubmitH now lang (some code) t).1 (now ++ jsonExt)
          = some (some code) := by
  have hpath := submit_filepath hiso
  have hstore : (fsSubmitH now lang (some code) fs).1
      = fsWrite fs (snippetsDir ++ [sanitizeTs now ++ jsonExt])
          ⟨jsOrDefault lang plaintextS, some code, sanitizeTs now⟩ := by
    simp only [fsSubmitH, hpath]
  have hdef : jsOrDefault lang plaintextS = lang := if_neg hlang
  refine ⟨?_, ?_, isoRestore_sanitize hiso,
    replaceFirst_json _ (sanitizeTs_no_dot now), ?_⟩
  · rw [hstore, fsLookup_fsWrite_self, hdef]
  · refine ⟨viewOf (sanitizeTs now ++ jsonExt)
      ⟨jsOrDefault lang plaintextS, some code, sanitizeTs now⟩, ?_, rfl, rfl, ?_⟩
    · rw [hstore, mem_getAllSnippets_iff]
      exact mem_rawViews (mem_fsWrite_self _ _ _) (endsWithB_append _ _)
    · show jsOrDefault (jsOrDefault lang plaintextS) plaintextS = lang
      rw [hdef]
      exact hdef
  · intro t hfresh
    have hins : pgInsert t
        (⟨now ++ jsonExt, jsOrDefault lang plaintextS, some code, now⟩ : Row)
        = Except.ok
          (t ++ [⟨now ++ jsonExt, jsOrDefault lang plaintextS, some code,
            now⟩]) :=
      pgInsert_fresh hfresh
    simp only [pgSubmitH, hins]
    exact pgGetCode_append_fresh hfresh

/-- C5, witness for the amended theorem at a concrete create. -/
theorem c5_roundtrip_amended_witness :
    fsLookup (fsSubmitH isoNow "python".data (some "x".data) []).1 fsPath
      = some ⟨"python".data, some "x".data, sanNow⟩ := by
  have h := c5_roundtrip_amended [] isoNow "python".data "x".data
    (by decide) (by decide)
  exact h.1

/-- C6, counterexample: two creations at the same instant generate the same
    filename and the second silently overwrites the first — its content is
    gone and the response is the ordinary success, with no collision
    detected. -/
theorem c6_create_collision_counterexample :
    fsSubmitH isoNow "sql".data (some "b".data)
        (fsSubmitH isoNow "python".data (some "a".data) []).1
      = ([(fsPath, ⟨"sql".data, some "b".data, sanNow⟩)], Response.ok) := by
  decide

/-- C6, amended: the filesystem variant does not detect filename collisions —
    a second create at the same instant silently replaces the earlier record
    and still reports success (last-writer-wins).  The relational variant
    does detect the collision: with `filename` as primary key the insert
    fails and the route answers 500, leaving the table unchanged. -/
theorem c6_create_collision_amended (fs : Fs) (now la lb : Str)
    (ca cb : Option Str) (hiso : isIso now = true) :
    (fsLookup (fsSubmitH now lb cb (fsSubmitH now la ca fs).1).1
        (snippetsDir ++ [sanitizeTs now ++ jsonExt])
        = some ⟨jsOrDefault lb plaintextS, cb, sanitizeTs now⟩
      ∧ (fsSubmitH now lb cb (fsSubmitH now la ca fs).1).2 = Response.ok)
    ∧ ∀ (t : Table) (lang : Str) (code : Option Str),
        (∃ r ∈ t, r.filename = now ++ jsonExt) →
        pgSubmitH now lang code t = (t, Response.serverError) := by
  have hpath := submit_filepath hiso
  refine ⟨⟨?_, rfl⟩, ?_⟩
  · simp only [fsSubmitH, hpath]
    exact fsLookup_fsWrite_self _ _ _
  · intro t lang code hdup
    have hins : pgInsert t
        (⟨now ++ jsonExt, jsOrDefault lang plaintextS, code, now⟩ : Row)
        = Except.error () :=
      pgInsert_dup hdup
    simp only [pgSubmitH, hins]

/-- C6, witness for the amended theorem: overwrite on the concrete instant,
    rejection on the concrete one-row table. -/
theorem c6_create_collision_amended_witness :
    fsLookup (fsSubmitH isoNow "sql".data (some "b".data)
        (fsSubmitH isoNow "python".data (some "a".data) []).1).1 fsPath
      = some ⟨jsOrDefault "sql".data plaintextS, some "b".data, sanNow⟩
    ∧ pgSubmitH isoNow "x".data (some "y".data)
        [⟨isoNow ++ jsonExt, plaintextS, some "a".data, isoNow⟩]
      = ([⟨isoNow ++ jsonExt, plaintextS, some "a".data, isoNow⟩],
         Response.serverError) := by
  have h := c6_create_collision_amended [] isoNow "python".data "sql".data
    (some "a".data) (some "b".data) (by decide)
  exact ⟨h.1.1, h.2 _ "x".data (some "y".data)
    ⟨_, List.mem_cons_self _ _, rfl⟩⟩

/-- C7, counterexample: the two backends are not observably equivalent — the
    same create request at the same instant stores records with different
    filenames (sanitized in the filesystem variant, raw ISO in the
    relational one), so a caller listing records observes different
    results. -/
theorem c7_backend_divergence_counterexample :
    (fsSubmitH isoNow "python".data (some "x".data) []).1
        = [(fsPath, ⟨"python".data, some "x".data, sanNow⟩)]
      ∧ (pgSubmitH isoNow "python".data (some "x".data) []).1
        = [⟨isoNow ++ jsonExt, "python".data, some "x".data, isoNow⟩]
      ∧ fsName ≠ isoNow ++ jsonExt := by decide

/-- C7, amended: the backends are not observably equivalent — their create
    operations derive different filenames from the same instant.  They
    correspond up to timestamp sanitization: the same request stores in both
    exactly one record with the same defaulted language and the same code,
    the filesystem filename being the sanitized timestamp plus `.json`, the
    relational one the raw ISO timestamp plus `.json`, and the two differ
    for every ISO-shaped instant. -/
theorem c7_backend_correspondence (now lang : Str) (code : Option Str)
    (hiso : isIso now = true) :
    (fsSubmitH now lang code []).1
        = [(snippetsDir ++ [sanitizeTs now ++ jsonExt],
            ⟨jsOrDefault lang plaintextS, code, sanitizeTs now⟩)]
      ∧ (pgSubmitH now lang code []).1
        = [⟨now ++ jsonExt, jsOrDefault lang plaintextS, code, now⟩]
      ∧ (fsSubmitH now lang code []).2 = (pgSubmitH now lang code []).2
      ∧ sanitizeTs now ++ jsonExt ≠ now ++ jsonExt := by
  have hpath := submit_filepath hiso
  refine ⟨?_, rfl, rfl, ?_⟩
  · simp only [fsSubmitH, hpath]
    rfl
  · intro he
    have hsan : sanitizeTs now = now := List.append_cancel_right he
    have hcolon : ':' ∈ now := isIso_colon hiso
    rw [← hsan] at hcolon
    exact sanitizeTs_no_colon now hcolon

/-- C7, witness for the amended theorem at the concrete instant. -/
theorem c7_backend_correspondence_witness :
    (fsSubmitH isoNow "python".data (some "x".data) []).1
        = [(fsPath, ⟨jsOrDefault "python".data plaintextS, some "x".data,
            sanNow⟩)]
      ∧ sanNow ++ jsonExt ≠ isoNow ++ jsonExt := by
  have h := c7_backend_correspondence isoNow "python".data (some "x".data)
    (by decide)
  exact ⟨h.1, h.2.2.2⟩

/-- C8, counterexample: a create whose code field is absent is not rejected
    with a ValidationError — the filesystem variant stores a record without
    a code field and reports success. -/
theorem c8_absent_code_counterexample :
    fsSubmitH isoNow "python".data none []
      = ([(fsPath, ⟨"python".data, none, sanNow⟩)], Response.ok) := by decide

/-- C8, amended: no variant validates the code field.  A create with absent
    code succeeds: the filesystem variant stores a record lacking the code
    field — after which every non-empty-query search on that store throws
    (surfacing as 500) — and the relational variant inserts a NULL code.  A
    create with the empty string as code also succeeds and stores it. -/
theorem c8_absent_code_amended (fs : Fs) (now lang : Str)
    (hiso : isIso now = true) :
    ((fsSubmitH now lang none fs).2 = Response.ok
      ∧ fsLookup (fsSubmitH now lang none fs).1
          (snippetsDir ++ [sanitizeTs now ++ jsonExt])
          = some ⟨jsOrDefault lang plaintextS, none, sanitizeTs now⟩
      ∧ ∀ q : Str, q ≠ [] →
          fsSearchH (some q) none (fsSubmitH now lang none fs).1
            = Except.error ())
    ∧ ((fsSubmitH now lang (some []) fs).2 = Response.ok
      ∧ fsLookup (fsSubmitH now lang (some []) fs).1
          (snippetsDir ++ [sanitizeTs now ++ jsonExt])
          = some ⟨jsOrDefault lang plaintextS, some [], sanitizeTs now⟩)
    ∧ ∀ (t : Table) (l : Str), (∀ r ∈ t, r.filename ≠ now ++ jsonExt) →
        pgSubmitH now l none t
          = (t ++ [⟨now ++ jsonExt, jsOrDefault l plaintextS, none, now⟩],
             Response.ok) := by
  have hpath := submit_filepath hiso
  have hstore : (fsSubmitH now lang none fs).1
      = fsWrite fs (snippetsDir ++ [sanitizeTs now ++ jsonExt])
          ⟨jsOrDefault lang plaintextS, none, sanitizeTs now⟩ := by
    simp only [fsSubmitH, hpath]
  refine ⟨⟨rfl, ?_, ?_⟩, ⟨rfl, ?_⟩, ?_⟩
  · rw [hstore]
    exact fsLookup_fsWrite_self _ _ _
  · intro q hq
    have hv : viewOf (sanitizeTs now ++ jsonExt)
        ⟨jsOrDefault lang plaintextS, none, sanitizeTs now⟩
        ∈ getAllSnippets (fsSubmitH now lang none fs).1 := by
      rw [hstore, mem_getAllSnippets_iff]
      exact mem_rawViews (mem_fsWrite_self _ _ _) (endsWithB_append _ _)
    have hanytrue : ((getAllSnippets (fsSubmitH now lang none fs).1).any
        (fun v => v.content.isNone)) = true := by
      rw [List.any_eq_true]
      exact ⟨_, hv, rfl⟩
    have hqe : (lowerStr q).isEmpty = false := by
      rw [List.isEmpty_eq_false]
      simp only [lowerStr, ne_eq, List.map_eq_nil_iff]
      exact hq
    have hcond : (!(lowerStr q).isEmpty
        && (getAllSnippets (fsSubmitH now lang none fs).1).any
            (fun v => v.content.isNone)) = true := by
      rw [hqe, hanytrue]
      rfl
    simp only [fsSearchH, hcond, if_true]
  · have hstore2 : (fsSubmitH now lang (some []) fs).1
        = fsWrite fs (snippetsDir ++ [sanitizeTs now ++ jsonExt])
            ⟨jsOrDefault lang plaintextS, some [], sanitizeTs now⟩ := by
      simp only [fsSubmitH, hpath]
    rw [hstore2]
    exact fsLookup_fsWrite_self _ _ _
  · intro t l hfresh
    have hins : pgInsert t
        (⟨now ++ jsonExt, jsOrDefault l plaintextS, none, now⟩ : Row)
        = Except.ok
          (t ++ [⟨now ++ jsonExt, jsOrDefault l plaintextS, none, now⟩]) :=
      pgInsert_fresh hfresh
    simp only [pgSubmitH, hins]

/-- C8, witness for the amended theorem on the empty store. -/
theorem c8_absent_code_amended_witness :
    (fsSubmitH isoNow "python".data none []).2 = Response.ok
    ∧ fsSearchH (some "x".data) none
        (fsSubmitH isoNow "python".data none []).1 = Except.error () := by
  have h := c8_absent_code_amended [] isoNow "python".data (by decide)
  exact ⟨h.1.1, h.1.2.2 "x".data (by decide)⟩

/-- C9, counterexample: the relational variant's create keeps the raw ISO
    timestamp in the filename, so the generated name still contains `':'` —
    the separators are not normalized for every create. -/
theorem c9_filename_not_normalized_counterexample :
    (pgSubmitH isoNow "python".data (some "x".data) []).1
        = [⟨isoNow ++ jsonExt, "python".data, some "x".data, isoNow⟩]
      ∧ ':' ∈ isoNow ++ jsonExt := by decide

/-- C9, amended: the filesystem variant derives the filename from the
    creation instant's ISO timestamp with `':'` and `'.'` normalized to
    `'-'` — no `':'`, `'.'` or `'/'` remains in the stem and the instant
    stays recoverable; the filename keys the stored record, and the default
    listing is sorted newest-first on the filename-derived timestamp.  The
    relational variant instead keeps the raw ISO timestamp with its
    colons. -/
theorem c9_filename_normalized_fs (fs : Fs) (now lang : Str)
    (code : Option Str) (hiso : isIso now = true) :
    fsLookup (fsSubmitH now lang code fs).1
        (snippetsDir ++ [sanitizeTs now ++ jsonExt])
        = some ⟨jsOrDefault lang plaintextS, code, sanitizeTs now⟩
      ∧ (∀ ch ∈ sanitizeTs now, ch ≠ ':' ∧ ch ≠ '.' ∧ ch ≠ '/')
      ∧ isoRestore (sanitizeTs now) = now
      ∧ List.Pairwise (fun a b => snippetDesc a b = true)
          (getAllSnippets (fsSubmitH now lang code fs).1) := by
  have hpath := submit_filepath hiso
  refine ⟨?_, ?_, isoRestore_sanitize hiso, getAllSnippets_sorted _⟩
  · simp only [fsSubmitH, hpath]
    exact fsLookup_fsWrite_self _ _ _
  · intro ch hch
    exact ⟨fun he => sanitizeTs_no_colon now (he ▸ hch),
           fun he => sanitizeTs_no_dot now (he ▸ hch),
           fun he => sanitizeTs_noSlash (isIso_noSlash hiso) (he ▸ hch)⟩

/-- C9, witness for the amended theorem at the concrete instant. -/
theorem c9_filename_normalized_fs_witness :
    fsLookup (fsSubmitH isoNow "python".data (some "x".data) []).1 fsPath
      = some ⟨jsOrDefault "python".data plaintextS, some "x".data, sanNow⟩
    ∧ isoRestore sanNow = isoNow := by
  have h := c9_filename_normalized_fs [] isoNow "python".data
    (some "x".data) (by decide)
  exact ⟨h.1, h.2.2.1⟩

/-- The traversal input: a filename beginning with `../`. -/
def evilName : Str := "../secret.txt".data

/-- The path the traversal input resolves to: a sibling of the snippets
    directory, outside the store. -/
def outsidePath : FilePath' := appDir ++ ["secret.txt".data]

/-- C10: the filesystem delete joins the caller-supplied filename onto the
    snippets directory with no validation beyond existence of the resulting
    path, so the input `../secret.txt` (sent with a valid session and token)
    deletes an existing file outside the snippet store and reports
    success — deletion is not confined to the store's records. -/
theorem c10_delete_path_traversal (fs : Fs) (c : FsContent)
    (hmem : fsLookup fs outsidePath = some c) :
    fsDeleteRoute ⟨true, true⟩ (some evilName) fs
        = (fsRemove fs outsidePath, Response.ok)
      ∧ fsLookup (fsDeleteRoute ⟨true, true⟩ (some evilName) fs).1 outsidePath
          = none
      ∧ ¬ snippetsDir <+: outsidePath := by
  have hpath : normJoin snippetsDir (splitSlash evilName) = outsidePath := by
    decide
  have hne : evilName ≠ [] := by decide
  have h1 : fsDeleteRoute ⟨true, true⟩ (some evilName) fs
      = (fsRemove fs outsidePath, Response.ok) := by
    simp only [fsDeleteRoute, withAuth, withCsrf, fsDeleteH, hpath, hmem,
      if_neg hne, if_true]
  refine ⟨h1, ?_, by decide⟩
  rw [h1]
  exact fsLookup_fsRemove_self fs outsidePath

/-- C10, witness: the concrete filesystem holding one file outside the
    store, emptied by the traversal delete. -/
theorem c10_delete_path_traversal_witness :
    fsDeleteRoute ⟨true, true⟩ (some evilName)
        [(outsidePath, ⟨plaintextS, some "s".data, []⟩)]
      = ([], Response.ok) := by
  have h := c10_delete_path_traversal
    [(outsidePath, ⟨plaintextS, some "s".data, []⟩)]
    ⟨plaintextS, some "s".data, []⟩ (by decide)
  rw [h.1]
  decide

end SnippetServer
